import Mathlib

/-!
Shallow embedding of the mercure transport core: the `BoltTransport` durable
transport (`src/hub/bolt_transport.go`, with the subscriber-based variant in
`src/unnamed/part_000`) and the per-subscriber delivery pump
(`src/unnamed/part_001`).

Machine integers (`uint64`) are modelled as `Nat`; byte values as `Nat`
with an explicit `% 256` where the Go code truncates (`byte(v >> k)`).
The `float64` fields `cleanupFrequency` and the `rand.Float64()` draw enter
only through order comparisons and equality tests against `0` and `1`, which
are exact in IEEE semantics on `[0,1]`, so they are modelled as `ℚ`.
Channels are modelled by explicit event lists / delivered-update lists.
-/

namespace Mercure

/-- An update (`Update` in the Go source): identity, topics, targets and
payload. Targets form a set (`map[string]struct{}` in Go), modelled as a list
queried only through membership. -/
structure Update where
  id : String
  topics : List String
  targets : List String
  data : String
deriving Repr, DecidableEq

/-- The immutable part of a `Subscriber` (`src/unnamed/part_001`): target
authorization data and subscription topics. Each URI template is modelled by
its match function (`tt.Match(ut) != nil` becomes `tt ut = true`). The
mutable `matchCache` is threaded separately through `isSubscribedAux`. -/
structure Subscriber where
  allTargets : Bool
  targets : List String
  rawTopics : List String
  templateTopics : List (String → Bool)

/-- Lookup in the match cache (`s.matchCache[ut]`): Go map lookup modelled on
an association list. -/
def lookupCache (cache : List (String × Bool)) (t : String) : Option Bool :=
  (cache.find? (fun p => p.1 == t)).map (fun p => p.2)

/-- `Subscriber.IsAuthorized` (`src/unnamed/part_001` lines 134-146): allowed
if `AllTargets`, or the update is public (no targets), or some subscriber
target is among the update's targets. -/
def isAuthorized (s : Subscriber) (u : Update) : Bool :=
  s.allTargets || u.targets.isEmpty || s.targets.any (fun t => u.targets.contains t)

/-- The pure exact-or-template match for one topic: the underlying predicate
the match cache memoizes (exact equality against `RawTopics`, then template
match against `TemplateTopics`). -/
def topicMatches (s : Subscriber) (ut : String) : Bool :=
  s.rawTopics.contains ut || s.templateTopics.any (fun tt => tt ut)

/-- `Subscriber.IsSubscribed` (`src/unnamed/part_001` lines 150-177), with the
match cache made explicit: for each update topic, consult the cache; on a hit
`true` return true, on a hit `false` continue; on a miss test `RawTopics` then
`TemplateTopics`, caching the outcome. Returns the result together with the
updated cache. -/
def isSubscribedAux (s : Subscriber) : List String → List (String × Bool) → Bool × List (String × Bool)
  | [], cache => (false, cache)
  | ut :: rest, cache =>
    match lookupCache cache ut with
    | some true => (true, cache)
    | some false => isSubscribedAux s rest cache
    | none =>
      if s.rawTopics.contains ut then (true, (ut, true) :: cache)
      else if s.templateTopics.any (fun tt => tt ut) then (true, (ut, true) :: cache)
      else isSubscribedAux s rest ((ut, false) :: cache)

/-- `Subscriber.CanDispatch` (`src/unnamed/part_001` lines 118-130):
`IsAuthorized` first (cache untouched when it fails), then `IsSubscribed`. -/
def canDispatch (s : Subscriber) (u : Update) (cache : List (String × Bool)) :
    Bool × List (String × Bool) :=
  if isAuthorized s u then isSubscribedAux s u.topics cache else (false, cache)

/-- The pure meaning of `CanDispatch`: authorized and at least one topic
matches exactly or by template. -/
def dispatchable (s : Subscriber) (u : Update) : Bool :=
  isAuthorized s u && u.topics.any (topicMatches s)

/-- State of the subscriber pump (`Subscriber.start`): whether
`HistorySrc.In` is still non-nil (not yet closed), the two buffers, and the
match cache. The channels themselves are modelled by the events fed to
`pumpStep`. -/
structure PumpState where
  historyOpen : Bool
  historyBuf : List Update
  liveBuf : List Update
  cache : List (String × Bool)
deriving Repr, DecidableEq

/-- `Subscriber.outChan` (`src/unnamed/part_001` lines 94-99): the output
select case is armed iff some buffer is non-empty (otherwise the method
returns a nil channel and the case is disabled). -/
def outChanEnabled (st : PumpState) : Bool :=
  !st.liveBuf.isEmpty || !st.historyBuf.isEmpty

/-- `Subscriber.nextUpdate` (`src/unnamed/part_001` lines 101-115): while the
history source is open or its buffer non-empty, the head is the history
buffer's head (a nil pointer, `none`, when that buffer is empty); afterwards
the live buffer's head. -/
def nextUpdate (st : PumpState) : Option Update :=
  if st.historyOpen || !st.historyBuf.isEmpty then st.historyBuf.head?
  else st.liveBuf.head?

/-- The pop after a successful output send (`Subscriber.start` lines 84-89):
pop the history buffer if non-empty, else pop the live buffer. -/
def popBuffer (st : PumpState) : PumpState :=
  if st.historyBuf.isEmpty then { st with liveBuf := st.liveBuf.tail }
  else { st with historyBuf := st.historyBuf.tail }

/-- One select arm of the pump loop. `histRecv`/`histClose` model a value /
close on `HistorySrc.In`, `liveRecv` a value on `LiveSrc.In`, `output` the
send on `Out`. Disconnect arms exit the loop without emitting and are
modelled by ending the event list. -/
inductive PumpEvent where
  | histRecv (u : Update)
  | histClose
  | liveRecv (u : Update)
  | output
deriving Repr, DecidableEq

/-- One iteration of `Subscriber.start` (`src/unnamed/part_001` lines 64-92).
Returns `none` when the select arm is not enabled in this state (nil channel:
it cannot fire). For an enabled arm, returns the new state and, for the
output arm, the value sent on `Out` (`some none` models sending a nil
`*Update`). -/
def pumpStep (s : Subscriber) (st : PumpState) :
    PumpEvent → Option (PumpState × Option (Option Update))
  | .histRecv u =>
    if st.historyOpen then
      some ({ st with
                historyBuf :=
                  if (canDispatch s u st.cache).1 then st.historyBuf ++ [u]
                  else st.historyBuf,
                cache := (canDispatch s u st.cache).2 }, none)
    else none
  | .histClose =>
    if st.historyOpen then some ({ st with historyOpen := false }, none) else none
  | .liveRecv u =>
    some ({ st with
              liveBuf :=
                if (canDispatch s u st.cache).1 then st.liveBuf ++ [u]
                else st.liveBuf,
              cache := (canDispatch s u st.cache).2 }, none)
  | .output =>
    if outChanEnabled st then some (popBuffer st, some (nextUpdate st)) else none

/-- Run the pump over a list of events, collecting everything sent on `Out`
(in order). Events whose arm is not enabled do not fire. -/
def runPump (s : Subscriber) : PumpState → List PumpEvent → PumpState × List (Option Update)
  | st, [] => (st, [])
  | st, ev :: rest =>
    match pumpStep s st ev with
    | none => runPump s st rest
    | some (st', out) =>
      ((runPump s st' rest).1, out.toList ++ (runPump s st' rest).2)

/-- One call of `IsSubscribed` per update, starting from the empty cache of
`NewSubscriber`, keeping only the cache (for the cache-consistency claim). -/
def isSubscribedMany (s : Subscriber) (us : List Update) : List (String × Bool) :=
  us.foldl (fun c u => (isSubscribedAux s u.topics c).2) []

/-- The match cache is consistent with the underlying predicates: every
cached entry records exactly the value of the exact-or-template match. -/
def cacheConsistent (s : Subscriber) (cache : List (String × Bool)) : Prop :=
  ∀ p ∈ cache, topicMatches s p.1 = p.2

/-- `binary.BigEndian.PutUint64` (`persist`, `src/hub/bolt_transport.go`
line 131): the 8-byte big-endian encoding, most significant byte first; each
byte is `byte(v >> k)`, that is `v / 2^k % 256`. -/
def putUint64BE (v : Nat) : List Nat :=
  [v / 2 ^ 56 % 256, v / 2 ^ 48 % 256, v / 2 ^ 40 % 256, v / 2 ^ 32 % 256,
   v / 2 ^ 24 % 256, v / 2 ^ 16 % 256, v / 2 ^ 8 % 256, v % 256]

/-- `binary.BigEndian.Uint64` on the first 8 bytes of a key (`k[:8]`). -/
def getUint64BE (b : List Nat) : Nat :=
  match b with
  | b0 :: b1 :: b2 :: b3 :: b4 :: b5 :: b6 :: b7 :: _ =>
    b0 * 2 ^ 56 + b1 * 2 ^ 48 + b2 * 2 ^ 40 + b3 * 2 ^ 32 +
      b4 * 2 ^ 24 + b5 * 2 ^ 16 + b6 * 2 ^ 8 + b7
  | _ => 0

/-- The raw bytes of an update ID string (`[]byte(updateID)`). -/
def idBytes (s : String) : List Nat :=
  s.toUTF8.toList.map (fun b => b.toNat)

/-- One bucket entry: the stored key (`seq` prefix followed by the ID bytes,
built by `persist`), with the sequence number and ID suffix it encodes, and
the stored update (the JSON value, kept decoded). `fetch` reads the sequence
as `binary.BigEndian.Uint64(k[:8])` and the ID as `string(k[8:])`, which
coincide with `seq` and `id` by the key-layout theorem below. -/
structure LogEntry where
  key : List Nat
  seq : Nat
  id : String
  val : Update
deriving Repr, DecidableEq

/-- The entry `persist` stores for sequence `seq`:
`key = bytes.Join([prefix bytes, updateID bytes])`, value the update JSON. -/
def mkEntry (seq : Nat) (u : Update) : LogEntry :=
  ⟨putUint64BE seq ++ idBytes u.id, seq, u.id, u⟩

/-- The entries produced by a run of successful writes starting after
sequence `n`: write `k` (1-based) gets sequence `n + k`. -/
def mkEntries : Nat → List Update → List LogEntry
  | _, [] => []
  | n, u :: us => mkEntry (n + 1) u :: mkEntries (n + 1) us

/-- A pipe (`NewPipe` / `Pipe.Write` / `Pipe.Read`). Modelled from the spec:
its source is not in the repository snapshot; per the spec it is a
per-subscriber delivery channel whose `Write` attempts delivery and reports
`false` once the consumer is gone (disconnect or buffer full past the
timeout), and whose `Read` channel is closed by `Close`. `received` collects
the updates successfully handed to it. -/
structure Pipe where
  received : List Update
  alive : Bool
  outClosed : Bool
deriving Repr, DecidableEq

/-- A fresh pipe as attached by `CreatePipe`. -/
def newPipe : Pipe := ⟨[], true, false⟩

/-- Modelled from the spec: `Pipe.Write` delivers and returns `true` while
the consumer is alive, else refuses with `false`. -/
def pipeWrite (p : Pipe) (u : Update) : Bool × Pipe :=
  if p.alive then (true, { p with received := p.received ++ [u] }) else (false, p)

/-- Sentinel errors of the transport (`ErrClosedTransport`) together with the
two `Write` failure modes (JSON encoding error, storage transaction error). -/
inductive TransportError where
  | closedTransport
  | encodingError
  | persistenceError
deriving Repr, DecidableEq

/-- `BoltTransport` state: the closed flag (`done` channel), retention
parameters, the bucket's `NextSequence` counter, the in-memory `lastSeq`,
the ordered log and the attached pipes. -/
structure BoltTransport where
  closed : Bool
  size : Nat
  cleanupFrequency : ℚ
  counter : Nat
  lastSeq : Nat
  log : List LogEntry
  pipes : List Pipe
deriving DecidableEq

/-- The skip condition of `BoltTransport.cleanup`
(`src/hub/bolt_transport.go` lines 225-228): return immediately (no cleanup)
iff `size == 0 || cleanupFrequency == 0 || size >= lastID ||
(cleanupFrequency != 1 && rand.Float64() < cleanupFrequency)`, with `r` the
random draw. -/
def cleanupSkips (size : Nat) (freq r : ℚ) (lastID : Nat) : Bool :=
  size == 0 || freq == 0 || decide (lastID ≤ size) ||
    (!(freq == 1) && decide (r < freq))

/-- `BoltTransport.cleanup` (lines 224-245): when not skipped, compute
`removeUntil = lastID - size` and walk the cursor from the first key,
deleting every entry whose 8-byte prefix is `≤ removeUntil`, breaking at the
first entry whose prefix exceeds it — on the key-ordered bucket this is
`dropWhile`. -/
def cleanup (size : Nat) (freq r : ℚ) (log : List LogEntry) (lastID : Nat) :
    List LogEntry :=
  if cleanupSkips size freq r lastID then log
  else log.dropWhile (fun e => decide (e.seq ≤ lastID - size))

/-- `BoltTransport.persist` (lines 118-144) as a pure transition: take
`seq = NextSequence()` (the incremented counter), store it in `lastSeq`, run
`cleanup`, then `Put` the new key — the new key's prefix exceeds every
existing one, so in the key-ordered bucket the entry lands at the end. The
random draw `r` of the cleanup gate is a parameter. -/
def persist (t : BoltTransport) (u : Update) (r : ℚ) : BoltTransport :=
  let seq := t.counter + 1
  { t with
      counter := seq, lastSeq := seq,
      log := cleanup t.size t.cleanupFrequency r t.log seq ++ [mkEntry seq u] }

/-- The fan-out loop of `Write` (lines 108-112): for each attached pipe,
attempt `pipe.Write(update)`; a pipe that refuses is removed from the set. -/
def fanout (pipes : List Pipe) (u : Update) : List Pipe :=
  match pipes with
  | [] => []
  | p :: rest =>
    if (pipeWrite p u).1 then (pipeWrite p u).2 :: fanout rest u else fanout rest u

/-- `BoltTransport.Write` (lines 88-115): fail with `ClosedTransport` when
shutdown has begun, with the encoding error when `json.Marshal` fails, with
the persistence error when the storage transaction fails (the transaction
rolls back, so the state is unchanged); otherwise persist and fan out. The
fallibility of the two external operations is made explicit by the
`encodeOk` / `persistOk` parameters. Returns the error (if any) and the
resulting state. -/
def Write (t : BoltTransport) (u : Update) (encodeOk persistOk : Bool) (r : ℚ) :
    Option TransportError × BoltTransport :=
  if t.closed then (some .closedTransport, t)
  else if !encodeOk then (some .encodingError, t)
  else if !persistOk then (some .persistenceError, t)
  else (none, { persist t u r with pipes := fanout (persist t u r).pipes u })

/-- `BoltTransport.CreatePipe` (lines 147-167): fail with `ClosedTransport`
after shutdown; otherwise attach a fresh pipe. When `fromID` is non-empty the
code additionally snapshots `toSeq := t.lastSeq` and spawns
`go t.fetch(fromID, toSeq, pipe)`; the spawned walk is modelled by `fetch`
below with `replayWatermark` as its bound. -/
def CreatePipe (t : BoltTransport) (fromID : String) :
    Option TransportError × BoltTransport :=
  if t.closed then (some .closedTransport, t)
  else (none, { t with pipes := t.pipes ++ [newPipe] })

/-- The replay watermark captured by `CreatePipe` (line 163):
`toSeq := t.lastSeq.Load()`. -/
def replayWatermark (t : BoltTransport) : Nat := t.lastSeq

/-- `BoltTransport.Close` (lines 205-221): a second call returns `nil`
immediately; the first call closes every attached pipe's read channel, closes
`done` and releases the database. Always returns without error. -/
def Close (t : BoltTransport) : Option TransportError × BoltTransport :=
  if t.closed then (none, t)
  else (none, { t with
                  closed := true,
                  pipes := t.pipes.map (fun p => { p with outClosed := true }) })

/-- The delivery phase of the replay walk (`fetch`, lines 186-194, once
`afterFromID` holds): deliver each entry's decoded value to the pipe, then
stop if the pipe refused or `toSeq > 0 && seq >= toSeq`. The stop test runs
after the delivery. Modelled with an accepting pipe (every `pipe.Write`
returns true) and successful JSON decoding. -/
def fetchDeliver (toSeq : Nat) : List LogEntry → List Update
  | [] => []
  | e :: rest =>
    e.val :: (if 0 < toSeq ∧ toSeq ≤ e.seq then [] else fetchDeliver toSeq rest)

/-- The skip phase of `BoltTransport.fetch` (lines 169-202): walk the cursor
from the first key; until an entry whose ID-suffix equals `fromID` is found,
skip (the matching entry itself included); then deliver per `fetchDeliver`.
The same walk appears in `dispatchFromHistory` of `src/unnamed/part_000`. -/
def fetch (fromID : String) (toSeq : Nat) : List LogEntry → List Update
  | [] => []
  | e :: rest =>
    if e.id = fromID then fetchDeliver toSeq rest else fetch fromID toSeq rest

/-- `dispatchFromHistory` (`src/unnamed/part_000` lines 162-194): the replay
walk plus the `defer close(s.History.In)`, which closes the history input on
every exit path (no data, exhaustion, watermark stop, refusal, decode error).
Result: the delivered updates and whether the history input was closed. -/
def dispatchFromHistory (fromID : String) (toSeq : Nat) (log : List LogEntry) :
    List Update × Bool :=
  (fetch fromID toSeq log, true)

/-- Iterate successful `Write`s (encoding and storage both succeed; the
random draw is irrelevant under the claims' `cleanup_frequency` values and is
fixed to 0). -/
def writeAll (t : BoltTransport) : List Update → BoltTransport
  | [] => t
  | u :: us => writeAll (Write t u true true 0).2 us

/-- A transport fresh from `NewBoltTransport` on an empty database: open, no
pipes, empty log, counter and `lastSeq` at 0. -/
def freshTransport (size : Nat) (freq : ℚ) : BoltTransport :=
  ⟨false, size, freq, 0, 0, [], []⟩

/-- Big-endian base-256 digits, width `w`: recursion used to relate
`putUint64BE` to the lexicographic order. -/
def beBytes : Nat → Nat → List Nat
  | 0, _ => []
  | w + 1, v => v / 256 ^ w :: beBytes w (v % 256 ^ w)

/-- The invariant the pump maintains: the match cache is consistent and every
buffered update passed `CanDispatch`. -/
def pumpInv (s : Subscriber) (st : PumpState) : Prop :=
  cacheConsistent s st.cache ∧
  (∀ v ∈ st.historyBuf, dispatchable s v = true) ∧
  (∀ v ∈ st.liveBuf, dispatchable s v = true)

/-- Concrete updates for witnesses and counterexamples. -/
def uA : Update := ⟨"a", ["https://example.com/foo"], [], "da"⟩

def uB : Update := ⟨"b", ["https://example.com/foo"], [], "db"⟩

def uC : Update := ⟨"c", ["https://example.com/foo"], [], "dc"⟩

def uD : Update := ⟨"d", ["https://example.com/foo"], [], "dd"⟩

/-- A concrete subscriber subscribed to the demo topic by exact match. -/
def demoSub : Subscriber := ⟨false, [], ["https://example.com/foo"], []⟩

/-- A concrete open transport with one attached pipe. -/
def demoTransport : BoltTransport :=
  { freshTransport 0 1 with pipes := [newPipe] }

theorem lookupCache_consistent (s : Subscriber) (cache : List (String × Bool))
    (h : cacheConsistent s cache) (t : String) (b : Bool)
    (hl : lookupCache cache t = some b) : topicMatches s t = b := by
  unfold lookupCache at hl
  cases hf : cache.find? (fun p => p.1 == t) with
  | none => rw [hf] at hl; cases hl
  | some p =>
    rw [hf] at hl
    have hp1 : p.1 = t := by simpa using List.find?_some hf
    have hb : p.2 = b := by simpa using hl
    rw [← hp1, ← hb]
    exact h p (List.mem_of_find?_eq_some hf)

theorem isSubscribedAux_spec (s : Subscriber) :
    ∀ (ts : List String) (cache : List (String × Bool)), cacheConsistent s cache →
      cacheConsistent s (isSubscribedAux s ts cache).2 ∧
      (isSubscribedAux s ts cache).1 = ts.any (topicMatches s) := by
  intro ts
  induction ts with
  | nil => exact fun cache h => ⟨h, rfl⟩
  | cons ut rest ih =>
    intro cache h
    cases hl : lookupCache cache ut with
    | some b =>
      have hm : topicMatches s ut = b := lookupCache_consistent s cache h ut b hl
      cases b with
      | true =>
        simp only [isSubscribedAux, hl]
        exact ⟨h, by simp [List.any_cons, hm]⟩
      | false =>
        simp only [isSubscribedAux, hl]
        refine ⟨(ih cache h).1, ?_⟩
        rw [(ih cache h).2]
        simp [List.any_cons, hm]
    | none =>
      by_cases hraw : s.rawTopics.contains ut = true
      · simp only [isSubscribedAux, hl, hraw, if_true]
        constructor
        · intro p hp
          rcases List.mem_cons.mp hp with h1 | h2
          · rw [h1]; simp only [topicMatches, hraw, Bool.true_or]
          · exact h p h2
        · simp only [List.any_cons, topicMatches, hraw, Bool.true_or]
      · have hraw' : s.rawTopics.contains ut = false := by
          simpa using hraw
        by_cases htpl : s.templateTopics.any (fun tt => tt ut) = true
        · simp only [isSubscribedAux, hl, hraw', htpl, Bool.false_eq_true, if_false, if_true]
          constructor
          · intro p hp
            rcases List.mem_cons.mp hp with h1 | h2
            · rw [h1]; simp only [topicMatches, hraw', htpl, Bool.false_or]
            · exact h p h2
          · simp only [List.any_cons, topicMatches, hraw', htpl, Bool.false_or,
              Bool.true_or]
        · have htpl' : s.templateTopics.any (fun tt => tt ut) = false := by
            simpa using htpl
          have hm : topicMatches s ut = false := by
            simp only [topicMatches, hraw', htpl', Bool.or_self]
          have hcons : cacheConsistent s ((ut, false) :: cache) := by
            intro p hp
            rcases List.mem_cons.mp hp with h1 | h2
            · rw [h1]; exact hm
            · exact h p h2
          simp only [isSubscribedAux, hl, hraw', htpl', Bool.false_eq_true, if_false]
          refine ⟨(ih _ hcons).1, ?_⟩
          rw [(ih _ hcons).2]
          simp [List.any_cons, hm]

/-- C8: after any sequence of `IsSubscribed` calls starting from the fresh
subscriber's empty cache, every cached entry agrees with the underlying
exact-or-template predicate (a cached `true` means the topic is in
`RawTopics` or matches a `TemplateTopics` template; a cached `false` means
neither), and the next `IsSubscribed(u)` returns true iff at least one topic
of `u` satisfies the exact-or-template match. -/
theorem match_cache_consistent (s : Subscriber) (us : List Update) (u : Update) :
    (∀ p ∈ isSubscribedMany s us,
        (s.rawTopics.contains p.1 || s.templateTopics.any (fun tt => tt p.1)) = p.2) ∧
    (isSubscribedAux s u.topics (isSubscribedMany s us)).1
      = u.topics.any (topicMatches s) := by
  have hcons : cacheConsistent s (isSubscribedMany s us) := by
    unfold isSubscribedMany
    have hgen : ∀ (l : List Update) (c : List (String × Bool)), cacheConsistent s c →
        cacheConsistent s (l.foldl (fun c u => (isSubscribedAux s u.topics c).2) c) := by
      intro l
      induction l with
      | nil => exact fun c h => h
      | cons u' l' ih =>
        intro c h
        exact ih _ (isSubscribedAux_spec s u'.topics c h).1
    exact hgen us [] (fun p hp => absurd hp (List.not_mem_nil p))
  exact ⟨fun p hp => hcons p hp, (isSubscribedAux_spec s u.topics _ hcons).2⟩

theorem canDispatch_spec (s : Subscriber) (u : Update) (cache : List (String × Bool))
    (h : cacheConsistent s cache) :
    cacheConsistent s (canDispatch s u cache).2 ∧
    (canDispatch s u cache).1 = dispatchable s u := by
  unfold canDispatch dispatchable
  by_cases ha : isAuthorized s u = true
  · simp only [ha, if_true, Bool.true_and]
    exact isSubscribedAux_spec s u.topics cache h
  · have ha' : isAuthorized s u = false := by simpa using ha
    simp [ha', h]

theorem pumpStep_inv (s : Subscriber) (st : PumpState) (ev : PumpEvent)
    (st' : PumpState) (out : Option (Option Update)) (h : pumpInv s st)
    (hstep : pumpStep s st ev = some (st', out)) :
    pumpInv s st' ∧ ∀ v, out = some (some v) → dispatchable s v = true := by
  obtain ⟨hc, hh, hl⟩ := h
  have hcd := canDispatch_spec s
  cases ev with
  | histRecv u =>
    by_cases ho : st.historyOpen = true
    · simp only [pumpStep, ho, if_true, Option.some.injEq, Prod.mk.injEq] at hstep
      obtain ⟨hst, hout⟩ := hstep
      subst hst
      refine ⟨⟨(hcd u st.cache hc).1, ?_, hl⟩, by intro v hv; rw [← hout] at hv; cases hv⟩
      by_cases hok : (canDispatch s u st.cache).1 = true
      · simp only [hok, if_true]
        intro v hv
        rcases List.mem_append.mp hv with h1 | h2
        · exact hh v h1
        · have : v = u := by simpa using h2
          rw [this, ← (hcd u st.cache hc).2]
          exact hok
      · simp only [hok, if_false]
        simpa using hh
    · simp only [pumpStep, ho] at hstep
      cases hstep
  | histClose =>
    by_cases ho : st.historyOpen = true
    · simp only [pumpStep, ho, if_true, Option.some.injEq, Prod.mk.injEq] at hstep
      obtain ⟨hst, hout⟩ := hstep
      subst hst
      exact ⟨⟨hc, hh, hl⟩, by intro v hv; rw [← hout] at hv; cases hv⟩
    · simp only [pumpStep, ho] at hstep
      cases hstep
  | liveRecv u =>
    simp only [pumpStep, Option.some.injEq, Prod.mk.injEq] at hstep
    obtain ⟨hst, hout⟩ := hstep
    subst hst
    refine ⟨⟨(hcd u st.cache hc).1, hh, ?_⟩, by intro v hv; rw [← hout] at hv; cases hv⟩
    by_cases hok : (canDispatch s u st.cache).1 = true
    · simp only [hok, if_true]
      intro v hv
      rcases List.mem_append.mp hv with h1 | h2
      · exact hl v h1
      · have : v = u := by simpa using h2
        rw [this, ← (hcd u st.cache hc).2]
        exact hok
    · simp only [hok, if_false]
      simpa using hl
  | output =>
    by_cases he : outChanEnabled st = true
    · simp only [pumpStep, he, if_true, Option.some.injEq, Prod.mk.injEq] at hstep
      obtain ⟨hst, hout⟩ := hstep
      subst hst
      constructor
      · unfold popBuffer
        by_cases hhe : st.historyBuf.isEmpty = true
        · simp only [hhe, if_true]
          exact ⟨hc, hh, fun v hv => hl v (List.mem_of_mem_tail hv)⟩
        · simp only [hhe, if_false]
          exact ⟨hc, fun v hv => hh v (List.mem_of_mem_tail hv), hl⟩
      · intro v hv
        rw [← hout] at hv
        have hnext : nextUpdate st = some v := by simpa using hv
        unfold nextUpdate at hnext
        by_cases hcond : (st.historyOpen || !st.historyBuf.isEmpty) = true
        · rw [hcond] at hnext
          simp only [if_true] at hnext
          cases hhb : st.historyBuf with
          | nil => rw [hhb] at hnext; cases hnext
          | cons a l =>
            rw [hhb] at hnext
            have : a = v := by simpa using hnext
            exact this ▸ hh a (by rw [hhb]; exact List.mem_cons_self a l)
        · have hcond' : (st.historyOpen || !st.historyBuf.isEmpty) = false := by
            simpa using hcond
          rw [hcond'] at hnext
          simp only [Bool.false_eq_true, if_false] at hnext
          cases hlb : st.liveBuf with
          | nil => rw [hlb] at hnext; cases hnext
          | cons a l =>
            rw [hlb] at hnext
            have : a = v := by simpa using hnext
            exact this ▸ hl a (by rw [hlb]; exact List.mem_cons_self a l)
    · simp only [pumpStep, he] at hstep
      cases hstep

theorem runPump_inv (s : Subscriber) (events : List PumpEvent) :
    ∀ (st : PumpState), pumpInv s st →
      pumpInv s (runPump s st events).1 ∧
      ∀ o ∈ (runPump s st events).2, ∀ v, o = some v → dispatchable s v = true := by
  induction events with
  | nil =>
    intro st h
    exact ⟨h, by intro o ho; cases ho⟩
  | cons ev rest ih =>
    intro st h
    cases hstep : pumpStep s st ev with
    | none =>
      simp only [runPump, hstep]
      exact ih st h
    | some pr =>
      obtain ⟨st', out⟩ := pr
      have hi := pumpStep_inv s st ev st' out h hstep
      have hr := ih st' hi.1
      simp only [runPump, hstep]
      refine ⟨hr.1, ?_⟩
      intro o ho v hov
      rcases List.mem_append.mp ho with h1 | h2
      · cases out with
        | none => cases h1
        | some w =>
          have hw : o = w := by simpa using h1
          exact hi.2 v (by rw [← hw, hov])
      · exact hr.2 o h2 v hov

/-- C7: starting from a fresh pump (empty buffers, empty match cache), every
update actually delivered on `Out` is both authorized and subscribed, and an
update failing either check is never present in either buffer (hence never
reaches `Out`). Nil sends (`some none` emissions, see the C1 analysis) carry
no update and are not deliveries of one. -/
theorem output_filtered (s : Subscriber) (histOpen : Bool) (events : List PumpEvent) :
    (∀ o ∈ (runPump s ⟨histOpen, [], [], []⟩ events).2, ∀ v, o = some v →
        isAuthorized s v = true ∧ v.topics.any (topicMatches s) = true) ∧
    (∀ v ∈ (runPump s ⟨histOpen, [], [], []⟩ events).1.historyBuf,
        dispatchable s v = true) ∧
    (∀ v ∈ (runPump s ⟨histOpen, [], [], []⟩ events).1.liveBuf,
        dispatchable s v = true) := by
  have h0 : pumpInv s ⟨histOpen, [], [], []⟩ :=
    ⟨fun p hp => absurd hp (List.not_mem_nil p), by simp, by simp⟩
  have h := runPump_inv s events _ h0
  refine ⟨?_, h.1.2.1, h.1.2.2⟩
  intro o ho v hov
  have hd := h.2 o ho v hov
  unfold dispatchable at hd
  exact ⟨(Bool.and_eq_true _ _).mp hd |>.1, (Bool.and_eq_true _ _).mp hd |>.2⟩

/-- C1 is false of the code: in a pump state where the history source is
still open and the history buffer is empty but the live buffer is not,
`outChan` returns the real output channel (the live buffer is non-empty)
while `nextUpdate` returns nil, so the output select arm is enabled: it sends
a nil `*Update` on `Out` and pops the head of the live buffer. The spec
requires the pump to publish nothing in this state. This theorem evaluates
the pump at the failing state. -/
theorem pump_emits_nil_during_replay :
    pumpStep demoSub ⟨true, [], [uA], []⟩ .output =
      some (⟨true, [], [], []⟩, some none) := by
  rfl

/-- C4: with `cleanupFrequency` in `[0,1]`, cleanup runs (the skip condition
is false) iff `size > 0`, `cleanupFrequency > 0`, `seq > size`, and either
`cleanupFrequency = 1` or the random draw is `≥ cleanupFrequency`; in
particular `cleanupFrequency = 1` forces cleanup on every write with
`seq > size`, and `cleanupFrequency = 0` or `size = 0` disables it. -/
theorem cleanup_gating (size seq : Nat) (freq r : ℚ)
    (h0 : 0 ≤ freq) (h1 : freq ≤ 1) :
    (cleanupSkips size freq r seq = false ↔
      (0 < size ∧ 0 < freq ∧ size < seq ∧ (freq = 1 ∨ freq ≤ r))) ∧
    (freq = 1 → (cleanupSkips size freq r seq = false ↔ (0 < size ∧ size < seq))) ∧
    ((freq = 0 ∨ size = 0) → cleanupSkips size freq r seq = true) := by
  have hmain : cleanupSkips size freq r seq = false ↔
      (0 < size ∧ 0 < freq ∧ size < seq ∧ (freq = 1 ∨ freq ≤ r)) := by
    unfold cleanupSkips
    simp only [Bool.or_eq_false_iff, Bool.and_eq_false_iff, beq_eq_false_iff_ne, ne_eq,
      decide_eq_false_iff_not, not_le, not_lt, Bool.not_eq_eq_eq_not, Bool.not_true,
      Bool.not_false, beq_iff_eq]
    constructor
    · rintro ⟨⟨⟨hs, hf⟩, hlt⟩, hor⟩
      exact ⟨Nat.pos_of_ne_zero hs, lt_of_le_of_ne h0 (Ne.symm hf), hlt, hor⟩
    · rintro ⟨hs, hf, hlt, hor⟩
      exact ⟨⟨⟨Nat.pos_iff_ne_zero.mp hs, ne_of_gt hf⟩, hlt⟩, hor⟩
  refine ⟨hmain, ?_, ?_⟩
  · intro hf1
    rw [hmain]
    constructor
    · rintro ⟨hs, _, hlt, _⟩; exact ⟨hs, hlt⟩
    · rintro ⟨hs, hlt⟩
      exact ⟨hs, by rw [hf1]; norm_num, hlt, Or.inl hf1⟩
  · rintro (hf | hs)
    · unfold cleanupSkips
      rw [hf]
      simp
    · unfold cleanupSkips
      rw [hs]
      simp

theorem cleanup_gating_witness :
    ((0:ℚ) ≤ 1 ∧ (1:ℚ) ≤ 1) ∧
    ((cleanupSkips 2 1 0 3 = false ↔
        (0 < 2 ∧ (0:ℚ) < 1 ∧ 2 < 3 ∧ ((1:ℚ) = 1 ∨ (1:ℚ) ≤ 0))) ∧
      ((1:ℚ) = 1 → (cleanupSkips 2 1 0 3 = false ↔ (0 < 2 ∧ 2 < 3))) ∧
      (((1:ℚ) = 0 ∨ 2 = 0) → cleanupSkips 2 1 0 3 = true)) :=
  ⟨⟨by norm_num, le_refl 1⟩, cleanup_gating 2 3 1 0 (by norm_num) (le_refl 1)⟩

/-- C5: once `Close` has completed on an open transport, `Write` and
`CreatePipe` both fail with `ClosedTransport` (leaving the state unchanged),
every pipe attached before the close has had its output channel closed, and
a second `Close` returns without error and changes nothing. -/
theorem close_semantics (t : BoltTransport) (u : Update) (encodeOk persistOk : Bool)
    (r : ℚ) (fromID : String) (h : t.closed = false) :
    Write (Close t).2 u encodeOk persistOk r
      = (some .closedTransport, (Close t).2) ∧
    CreatePipe (Close t).2 fromID = (some .closedTransport, (Close t).2) ∧
    (Close t).2.pipes = t.pipes.map (fun p => { p with outClosed := true }) ∧
    Close (Close t).2 = (none, (Close t).2) := by
  have hc : (Close t).2.closed = true := by simp [Close, h]
  have hidem : ∀ (t' : BoltTransport), t'.closed = true → Close t' = (none, t') := by
    intro t' h'
    unfold Close
    rw [if_pos h']
  refine ⟨?_, ?_, ?_, ?_⟩
  · simp [Write, hc]
  · simp [CreatePipe, hc]
  · simp [Close, h]
  · exact hidem _ hc

theorem close_semantics_witness :
    demoTransport.closed = false ∧
    (Write (Close demoTransport).2 uA true true 0
        = (some .closedTransport, (Close demoTransport).2) ∧
      CreatePipe (Close demoTransport).2 "a"
        = (some .closedTransport, (Close demoTransport).2) ∧
      (Close demoTransport).2.pipes
        = demoTransport.pipes.map (fun p => { p with outClosed := true }) ∧
      Close (Close demoTransport).2 = (none, (Close demoTransport).2)) :=
  ⟨rfl, close_semantics demoTransport uA true true 0 "a" rfl⟩

/-- C6: on an open transport, if the JSON encoding or the storage transaction
fails, `Write` returns that error and the state is unchanged — the update is
not persisted in the log and no attached pipe receives it (fan-out only runs
after persistence succeeds). -/
theorem write_failure_atomic (t : BoltTransport) (u : Update)
    (encodeOk persistOk : Bool) (r : ℚ) (hc : t.closed = false)
    (hf : encodeOk = false ∨ persistOk = false) :
    ∃ err, Write t u encodeOk persistOk r = (some err, t) := by
  rcases hf with h | h
  · subst h
    exact ⟨.encodingError, by simp [Write, hc]⟩
  · subst h
    cases encodeOk with
    | false => exact ⟨.encodingError, by simp [Write, hc]⟩
    | true => exact ⟨.persistenceError, by simp [Write, hc]⟩

theorem write_failure_atomic_witness :
    demoTransport.closed = false ∧
    ∃ err, Write demoTransport uA false true 0 = (some err, demoTransport) :=
  ⟨rfl, write_failure_atomic demoTransport uA false true 0 rfl (Or.inl rfl)⟩

theorem fetch_skip (fromID : String) (toSeq : Nat) :
    ∀ (pre l : List LogEntry), (∀ e ∈ pre, e.id ≠ fromID) →
      fetch fromID toSeq (pre ++ l) = fetch fromID toSeq l := by
  intro pre
  induction pre with
  | nil => intro l _; rfl
  | cons e rest ih =>
    intro l h
    have he : e.id ≠ fromID := h e (List.mem_cons_self e rest)
    simp only [List.cons_append, fetch, if_neg he]
    exact ih l (fun x hx => h x (List.mem_cons_of_mem e hx))

theorem fetch_no_match (fromID : String) (toSeq : Nat) :
    ∀ (log : List LogEntry), (∀ e ∈ log, e.id ≠ fromID) →
      fetch fromID toSeq log = [] := by
  intro log
  induction log with
  | nil => intro _; rfl
  | cons e rest ih =>
    intro h
    have he : e.id ≠ fromID := h e (List.mem_cons_self e rest)
    simp only [fetch, if_neg he]
    exact ih (fun x hx => h x (List.mem_cons_of_mem e hx))

theorem fetchDeliver_eq_filter (toSeq : Nat) :
    ∀ (post : List LogEntry), List.Pairwise (fun a b => a.seq < b.seq) post →
      0 < toSeq → toSeq ∈ post.map LogEntry.seq →
      fetchDeliver toSeq post
        = (post.filter (fun e => decide (e.seq ≤ toSeq))).map LogEntry.val := by
  intro post
  induction post with
  | nil =>
    intro _ _ hmem
    simp at hmem
  | cons e rest ih =>
    intro hp h0 hmem
    have hrest : List.Pairwise (fun a b => a.seq < b.seq) rest := hp.of_cons
    have hgt : ∀ b ∈ rest, e.seq < b.seq :=
      fun b hb => List.rel_of_pairwise_cons hp hb
    have hmem2 : toSeq = e.seq ∨ ∃ a ∈ rest, a.seq = toSeq := by
      simpa using hmem
    rcases lt_trichotomy e.seq toSeq with hlt | heq | hgt'
    · have hcond : ¬ (0 < toSeq ∧ toSeq ≤ e.seq) := by omega
      have hmem' : toSeq ∈ rest.map LogEntry.seq := by
        rcases hmem2 with h1 | ⟨a, ha, has⟩
        · omega
        · exact List.mem_map.mpr ⟨a, ha, has⟩
      have hkeep : decide (e.seq ≤ toSeq) = true := by
        simp [Nat.le_of_lt hlt]
      simp only [fetchDeliver, if_neg hcond, List.filter_cons, hkeep, if_true,
        List.map_cons]
      rw [ih hrest h0 hmem']
    · have hcond : 0 < toSeq ∧ toSeq ≤ e.seq := ⟨h0, le_of_eq heq.symm⟩
      have hkeep : decide (e.seq ≤ toSeq) = true := by
        simp [le_of_eq heq]
      have hnil : rest.filter (fun x => decide (x.seq ≤ toSeq)) = [] := by
        rw [List.filter_eq_nil_iff]
        intro x hx
        have := hgt x hx
        simp only [decide_eq_true_eq]
        omega
      simp only [fetchDeliver, if_pos hcond, List.filter_cons, hkeep, if_true,
        List.map_cons, hnil, List.map_nil]
    · exfalso
      rcases hmem2 with h1 | ⟨x, hx, hxs⟩
      · omega
      · have := hgt x hx
        omega

/-- C2 amended: over a log whose sequence prefixes are strictly increasing,
a replay with non-empty `fromID` delivers nothing when no entry's ID-suffix
equals `fromID`, and otherwise — provided the first matching entry's
sequence lies strictly below the watermark and the watermark sequence is
present in the log — delivers exactly the persisted updates with sequence
strictly greater than the match and at most the watermark, in key order,
closing the history input in every case. (Outside that proviso the walk can
deliver one single entry at or beyond the watermark before its stop test
fires; see the counterexample.) -/
theorem replay_delivery (fromID : String) (toSeq : Nat)
    (pre post : List LogEntry) (m : LogEntry)
    (hsorted : List.Pairwise (fun a b => a.seq < b.seq) (pre ++ m :: post))
    (hpre : ∀ e ∈ pre, e.id ≠ fromID) (hm : m.id = fromID)
    (hlt : m.seq < toSeq)
    (hto : toSeq ∈ (pre ++ m :: post).map LogEntry.seq) :
    dispatchFromHistory fromID toSeq (pre ++ m :: post)
      = ((post.filter (fun e => decide (e.seq ≤ toSeq))).map LogEntry.val, true) ∧
    ∀ (log : List LogEntry), (∀ e ∈ log, e.id ≠ fromID) →
      dispatchFromHistory fromID toSeq log = ([], true) := by
  constructor
  · have hpost : List.Pairwise (fun a b => a.seq < b.seq) post := by
      have hsub : post.Sublist (pre ++ m :: post) := by
        have h2 := List.sublist_append_right (pre ++ [m]) post
        simp only [List.append_assoc, List.singleton_append] at h2
        exact h2
      exact hsorted.sublist hsub
    have hcross : ∀ a ∈ pre, a.seq < m.seq := by
      intro a ha
      exact (List.pairwise_append.mp hsorted).2.2 a ha m (List.mem_cons_self m post)
    have hmpost : ∀ b ∈ post, m.seq < b.seq :=
      fun b hb =>
        List.rel_of_pairwise_cons (List.pairwise_append.mp hsorted).2.1 hb
    have hto' : toSeq ∈ post.map LogEntry.seq := by
      rw [List.map_append, List.mem_append] at hto
      rcases hto with h1 | h2
      · exfalso
        rcases List.mem_map.mp h1 with ⟨x, hx, hxs⟩
        have := hcross x hx
        omega
      · have h2' : toSeq = m.seq ∨ ∃ a ∈ post, a.seq = toSeq := by
          simpa using h2
        rcases h2' with h3 | ⟨a, ha, has⟩
        · omega
        · exact List.mem_map.mpr ⟨a, ha, has⟩
    unfold dispatchFromHistory
    rw [fetch_skip fromID toSeq pre (m :: post) hpre]
    simp only [fetch, if_pos hm]
    rw [fetchDeliver_eq_filter toSeq post hpost (by omega) hto']
  · intro log hlog
    unfold dispatchFromHistory
    rw [fetch_no_match fromID toSeq log hlog]

/-- C2 is false of the code as literally stated: with the log containing
sequences 1 (ID "a") and 2 (ID "b") and a replay watermark of 1 — reachable
by writing "a", calling `CreatePipe("a")`, then writing "b" before the
replay's read snapshot is taken — the walk delivers the update of sequence
2, which exceeds the watermark, because the stop test runs only after the
delivery. The claim requires "up to the watermark", i.e. nothing here. -/
theorem replay_watermark_overshoot :
    fetch "a" 1 [mkEntry 1 uA, mkEntry 2 uB] = [uB] ∧
    1 < (mkEntry 2 uB).seq ∧
    (([mkEntry 2 uB].filter (fun e => decide (e.seq ≤ 1))).map LogEntry.val
      = []) := by
  refine ⟨by decide, by decide, by decide⟩

theorem replay_delivery_witness :
    (dispatchFromHistory "a" 3 [mkEntry 1 uA, mkEntry 2 uB, mkEntry 3 uC, mkEntry 4 uD]
      = ([uB, uC], true)) ∧
    dispatchFromHistory "a" 3 [mkEntry 1 uC] = ([], true) := by
  have h := replay_delivery "a" 3 [] [mkEntry 2 uB, mkEntry 3 uC, mkEntry 4 uD]
    (mkEntry 1 uA) (by decide) (by intro e he; cases he) rfl (by decide) (by decide)
  exact ⟨h.1, h.2 [mkEntry 1 uC] (by decide)⟩

theorem fetchDeliver_zero (post : List LogEntry) :
    fetchDeliver 0 post = post.map LogEntry.val := by
  induction post with
  | nil => rfl
  | cons e rest ih =>
    simp only [fetchDeliver, Nat.lt_irrefl, false_and, if_false, List.map_cons, ih]

/-- C10: when the in-memory last-seen sequence is 0 (no `Write` has completed
in this process, e.g. right after reopening an existing database), the
watermark `CreatePipe` snapshots is 0, and since the stop test applies only
when `toSeq > 0`, the replay walk is not truncated by any sequence snapshot:
after the first `fromID` match it delivers every remaining entry of the log
(bounded only by the pipe refusing or the log ending). -/
theorem watermark_disabled (t : BoltTransport) (fromID : String)
    (pre post : List LogEntry) (m : LogEntry) (h0 : t.lastSeq = 0)
    (hpre : ∀ e ∈ pre, e.id ≠ fromID) (hm : m.id = fromID) :
    fetch fromID (replayWatermark t) (pre ++ m :: post) = post.map LogEntry.val := by
  rw [replayWatermark, h0, fetch_skip fromID 0 pre (m :: post) hpre]
  simp only [fetch, if_pos hm]
  exact fetchDeliver_zero post

theorem map_seq_dropWhile (c : Nat) :
    ∀ (l : List LogEntry),
      (l.dropWhile (fun e => decide (e.seq ≤ c))).map LogEntry.seq
        = (l.map LogEntry.seq).dropWhile (fun k => decide (k ≤ c)) := by
  intro l
  induction l with
  | nil => rfl
  | cons e tl ih =>
    simp only [List.map_cons, List.dropWhile_cons, decide_eq_true_eq]
    by_cases h : e.seq ≤ c
    · simp only [if_pos h]
      exact ih
    · simp only [if_neg h, List.map_cons]

theorem dropWhile_sorted_filter (c : Nat) :
    ∀ (l : List Nat), List.Pairwise (· < ·) l →
      l.dropWhile (fun k => decide (k ≤ c)) = l.filter (fun k => decide (c < k)) := by
  intro l
  induction l with
  | nil => intro _; rfl
  | cons a tl ih =>
    intro hp
    simp only [List.dropWhile_cons, List.filter_cons, decide_eq_true_eq]
    by_cases h : a ≤ c
    · have hnc : ¬ c < a := by omega
      simp only [if_pos h, if_neg hnc]
      exact ih hp.of_cons
    · have hc : c < a := by omega
      have htl : tl.filter (fun k => decide (c < k)) = tl := by
        rw [List.filter_eq_self]
        intro x hx
        have := List.rel_of_pairwise_cons hp hx
        simp only [decide_eq_true_eq]
        omega
      simp only [if_neg h, if_pos hc, htl]

theorem filter_range'_window (S N : Nat) (hS : 0 < S) (hN : S ≤ N) :
    (List.range' 1 N).filter (fun k => decide (N - S < k))
      = List.range' (N - S + 1) S := by
  have hsplit : List.range' 1 (N - S) ++ List.range' (1 + (N - S)) S
      = List.range' 1 N := by
    have h := List.range'_append 1 (N - S) S 1
    simp only [one_mul] at h
    rw [h]
    congr 1
    omega
  rw [← hsplit, List.filter_append]
  have h1 : (List.range' 1 (N - S)).filter (fun k => decide (N - S < k)) = [] := by
    rw [List.filter_eq_nil_iff]
    intro a ha
    have := List.mem_range'_1.mp ha
    simp only [decide_eq_true_eq]
    omega
  have h2 : (List.range' (1 + (N - S)) S).filter (fun k => decide (N - S < k))
      = List.range' (1 + (N - S)) S := by
    rw [List.filter_eq_self]
    intro a ha
    have := List.mem_range'_1.mp ha
    simp only [decide_eq_true_eq]
    omega
  rw [h1, h2, List.nil_append]
  congr 1
  omega

theorem write_ok_fields (t : BoltTransport) (u : Update) (r : ℚ)
    (h : t.closed = false) :
    (Write t u true true r).2.closed = t.closed ∧
    (Write t u true true r).2.size = t.size ∧
    (Write t u true true r).2.cleanupFrequency = t.cleanupFrequency ∧
    (Write t u true true r).2.counter = t.counter + 1 ∧
    (Write t u true true r).2.lastSeq = t.counter + 1 ∧
    (Write t u true true r).2.log
      = cleanup t.size t.cleanupFrequency r t.log (t.counter + 1)
          ++ [mkEntry (t.counter + 1) u] := by
  simp [Write, h, persist]

theorem step_seqs (S n : Nat) (hS : 0 < S) (log : List LogEntry) (u : Update)
    (hinv : log.map LogEntry.seq
      = (List.range' 1 n).filter (fun k => decide (n - S < k))) :
    (cleanup S 1 0 log (n + 1) ++ [mkEntry (n + 1) u]).map LogEntry.seq
      = (List.range' 1 (n + 1)).filter (fun k => decide (n + 1 - S < k)) := by
  have h1n : 1 + 1 * n = n + 1 := by omega
  have hconcat := @List.range'_concat 1 1 n
  rw [h1n] at hconcat
  rw [List.map_append, hconcat, List.filter_append]
  have hsingle : [mkEntry (n + 1) u].map LogEntry.seq = [n + 1] := rfl
  have hkeep : ([n + 1].filter (fun k => decide (n + 1 - S < k))) = [n + 1] := by
    simp only [List.filter_cons, List.filter_nil, decide_eq_true_eq]
    rw [if_pos (by omega)]
  rw [hsingle, hkeep]
  congr 1
  unfold cleanup
  by_cases hskip : n + 1 ≤ S
  · have hs : cleanupSkips S 1 0 (n + 1) = true := by
      unfold cleanupSkips
      have h3 : decide (n + 1 ≤ S) = true := by simp [hskip]
      rw [h3]
      simp
    rw [if_pos hs, hinv]
    have e1 : n - S = 0 := by omega
    have e2 : n + 1 - S = 0 := by omega
    simp only [e1, e2]
  · have hrun : cleanupSkips S 1 0 (n + 1) = false := by
      unfold cleanupSkips
      have hs0 : (S == 0) = false := by
        simp only [beq_eq_false_iff_ne, ne_eq]
        omega
      have hf0 : ((1:ℚ) == 0) = false := by norm_num
      have h3 : decide (n + 1 ≤ S) = false := by simp [hskip]
      have hf1 : (!((1:ℚ) == 1)) = false := by norm_num
      rw [hs0, hf0, h3, hf1]
      rfl
    rw [if_neg (by simp [hrun])]
    rw [map_seq_dropWhile (n + 1 - S) log, hinv]
    have hpw : List.Pairwise (· < ·)
        ((List.range' 1 n).filter (fun k => decide (n - S < k))) :=
      (List.pairwise_lt_range' 1 n).filter _
    rw [dropWhile_sorted_filter (n + 1 - S) _ hpw, List.filter_filter]
    apply List.filter_congr
    intro x hx
    have hxm := List.mem_range'_1.mp hx
    by_cases hlt : n + 1 - S < x
    · have hlt' : n - S < x := by omega
      simp [hlt, hlt']
    · simp [hlt]

theorem writeAll_retention (S : Nat) (hS : 0 < S) :
    ∀ (us : List Update) (t : BoltTransport),
      t.closed = false → t.size = S → t.cleanupFrequency = 1 →
      t.log.map LogEntry.seq
        = (List.range' 1 t.counter).filter (fun k => decide (t.counter - S < k)) →
      (writeAll t us).log.map LogEntry.seq
        = (List.range' 1 (t.counter + us.length)).filter
            (fun k => decide (t.counter + us.length - S < k)) := by
  intro us
  induction us with
  | nil =>
    intro t h1 h2 h3 h4
    simpa [writeAll] using h4
  | cons u rest ih =>
    intro t h1 h2 h3 h4
    have hf := write_ok_fields t u 0 h1
    have hstep : (Write t u true true 0).2.log.map LogEntry.seq
        = (List.range' 1 (t.counter + 1)).filter
            (fun k => decide (t.counter + 1 - S < k)) := by
      rw [hf.2.2.2.2.2, h2, h3]
      exact step_seqs S t.counter hS t.log u h4
    have hrec := ih (Write t u true true 0).2 (by rw [hf.1]; exact h1)
      (by rw [hf.2.1]; exact h2) (by rw [hf.2.2.1]; exact h3)
      (by
        simp only [hf.2.2.2.1]
        exact hstep)
    simp only [hf.2.2.2.1] at hrec
    simp only [writeAll, List.length_cons]
    have harith : t.counter + (rest.length + 1) = t.counter + 1 + rest.length := by
      omega
    simp only [harith]
    exact hrec

/-- C3: with retention size `S > 0` and `cleanup_frequency = 1`, after
`N > S` successful writes on a fresh bucket the log holds exactly `S`
entries, and they are the most recent ones: their sequence prefixes are
`N - S + 1` through `N`. Each cleanup run deletes (in the `Put`'s own
transaction) every key whose prefix is at most `seq - size`, stopping at the
first larger key. -/
theorem retention_exact (S : Nat) (us : List Update) (hS : 0 < S)
    (hN : S < us.length) :
    (writeAll (freshTransport S 1) us).log.map LogEntry.seq
      = List.range' (us.length - S + 1) S ∧
    (writeAll (freshTransport S 1) us).log.length = S := by
  have h0 : (freshTransport S 1).log.map LogEntry.seq
      = (List.range' 1 (freshTransport S 1).counter).filter
          (fun k => decide ((freshTransport S 1).counter - S < k)) := rfl
  have h := writeAll_retention S hS us (freshTransport S 1) rfl rfl rfl h0
  have hc0 : (freshTransport S 1).counter = 0 := rfl
  simp only [hc0, Nat.zero_add] at h
  rw [filter_range'_window S us.length hS (le_of_lt hN)] at h
  refine ⟨h, ?_⟩
  have hlen := congrArg List.length h
  simpa [List.length_range'] using hlen

theorem retention_exact_witness :
    0 < 2 ∧ 2 < [uA, uB, uC].length ∧
    ((writeAll (freshTransport 2 1) [uA, uB, uC]).log.map LogEntry.seq
        = List.range' 2 2 ∧
      (writeAll (freshTransport 2 1) [uA, uB, uC]).log.length = 2) :=
  ⟨by decide, by decide, retention_exact 2 [uA, uB, uC] (by decide) (by decide)⟩

theorem watermark_disabled_witness :
    (freshTransport 0 1).lastSeq = 0 ∧
    fetch "a" (replayWatermark (freshTransport 0 1))
        [mkEntry 1 uA, mkEntry 2 uB, mkEntry 3 uC]
      = [uB, uC] :=
  ⟨rfl, watermark_disabled (freshTransport 0 1) "a" [] [mkEntry 2 uB, mkEntry 3 uC]
    (mkEntry 1 uA) rfl (by intro e he; cases he) rfl⟩

theorem getUint64BE_put (v : Nat) (hv : v < 2 ^ 64) (rest : List Nat) :
    getUint64BE (putUint64BE v ++ rest) = v := by
  simp only [putUint64BE, List.cons_append, List.nil_append, getUint64BE]
  omega

theorem putUint64BE_eq_beBytes (v : Nat) (hv : v < 2 ^ 64) :
    putUint64BE v = beBytes 8 v := by
  simp only [putUint64BE, beBytes, List.cons.injEq, and_true]
  norm_num
  omega

theorem beBytes_lt : ∀ (w m n : Nat), m < n → n < 256 ^ w →
    List.Lex (· < ·) (beBytes w m) (beBytes w n) := by
  intro w
  induction w with
  | zero =>
    intro m n hmn hn
    simp only [pow_zero] at hn
    omega
  | succ w ih =>
    intro m n hmn hn
    by_cases hd : m / 256 ^ w < n / 256 ^ w
    · exact List.Lex.rel hd
    · have hle : m / 256 ^ w ≤ n / 256 ^ w :=
        Nat.div_le_div_right (le_of_lt hmn)
      have heq : m / 256 ^ w = n / 256 ^ w := le_antisymm hle (not_lt.mp hd)
      have hmod : m % 256 ^ w < n % 256 ^ w := by
        have e1 := Nat.div_add_mod m (256 ^ w)
        have e2 := Nat.div_add_mod n (256 ^ w)
        rw [heq] at e1
        generalize hP : 256 ^ w * (n / 256 ^ w) = P at e1 e2
        generalize hmr : m % 256 ^ w = mr at e1 ⊢
        generalize hnr : n % 256 ^ w = nr at e2 ⊢
        omega
      have hmodlt : n % 256 ^ w < 256 ^ w :=
        Nat.mod_lt n (Nat.pos_pow_of_pos w (by norm_num))
      simp only [beBytes, heq]
      exact List.Lex.cons (ih (m % 256 ^ w) (n % 256 ^ w) hmod hmodlt)

theorem lex_lt_append :
    ∀ (l1 l2 s1 s2 : List Nat), l1.length = l2.length →
      List.Lex (· < ·) l1 l2 → List.Lex (· < ·) (l1 ++ s1) (l2 ++ s2) := by
  intro l1 l2 s1 s2 hlen hlex
  revert hlen
  induction hlex with
  | nil =>
    intro hlen
    simp at hlen
  | cons h ih =>
    intro hlen
    exact List.Lex.cons (ih (by simpa using hlen))
  | rel h =>
    intro _
    exact List.Lex.rel h

theorem key_lt (e1 e2 : LogEntry)
    (h1 : e1.key = putUint64BE e1.seq ++ idBytes e1.id)
    (h2 : e2.key = putUint64BE e2.seq ++ idBytes e2.id)
    (hseq : e1.seq < e2.seq) (hbound : e2.seq < 2 ^ 64) :
    List.Lex (· < ·) e1.key e2.key := by
  rw [h1, h2]
  apply lex_lt_append _ _ _ _ (by simp [putUint64BE])
  rw [putUint64BE_eq_beBytes _ (lt_trans hseq hbound),
    putUint64BE_eq_beBytes _ hbound]
  have h256 : (256:Nat) ^ 8 = 2 ^ 64 := by norm_num
  exact beBytes_lt 8 _ _ hseq (by rw [h256]; exact hbound)

theorem writeAll_nocleanup (us : List Update) :
    ∀ (t : BoltTransport), t.closed = false → t.size = 0 →
      (writeAll t us).log = t.log ++ mkEntries t.counter us := by
  induction us with
  | nil =>
    intro t _ _
    simp [writeAll, mkEntries]
  | cons u rest ih =>
    intro t h1 h2
    have hskip : cleanup t.size t.cleanupFrequency 0 t.log (t.counter + 1)
        = t.log := by
      unfold cleanup cleanupSkips
      rw [h2]
      simp
    have hf := write_ok_fields t u 0 h1
    have hrec := ih (Write t u true true 0).2 (by rw [hf.1]; exact h1)
      (by rw [hf.2.1]; exact h2)
    simp only [writeAll]
    rw [hrec, hf.2.2.2.1, hf.2.2.2.2.2, hskip]
    simp [mkEntries, List.append_assoc]

theorem mkEntries_shape (us : List Update) :
    ∀ (n : Nat), ∀ e ∈ mkEntries n us,
      e.key = putUint64BE e.seq ++ idBytes e.id ∧ n < e.seq ∧ e.seq ≤ n + us.length := by
  induction us with
  | nil =>
    intro n e he
    cases he
  | cons u rest ih =>
    intro n e he
    rcases List.mem_cons.mp he with h1 | h2
    · subst h1
      exact ⟨rfl, by simp [mkEntry], by simp [mkEntry]⟩
    · have := ih (n + 1) e h2
      refine ⟨this.1, by omega, ?_⟩
      have h22 := this.2.2
      simp only [List.length_cons]
      omega

theorem mkEntries_seqs (us : List Update) :
    ∀ (n : Nat), (mkEntries n us).map LogEntry.seq = List.range' (n + 1) us.length := by
  induction us with
  | nil =>
    intro n
    rfl
  | cons u rest ih =>
    intro n
    simp only [mkEntries, List.map_cons, List.length_cons, List.range'_succ, one_mul]
    rw [ih (n + 1)]
    rfl

/-- C9: on a run of successful writes from a fresh transport, every stored
key is exactly the 8-byte big-endian encoding of the entry's sequence number
followed by the raw update-ID bytes (so decoding the prefix recovers the
sequence), and the keys' 8-byte prefixes are strictly increasing across
successive writes, so the keys sort (bytewise lexicographically) in write
order. -/
theorem log_keys_sorted (us : List Update) (h : us.length < 2 ^ 64) :
    List.Pairwise (List.Lex (· < ·))
      ((writeAll (freshTransport 0 1) us).log.map LogEntry.key) ∧
    ∀ e ∈ (writeAll (freshTransport 0 1) us).log,
      e.key = putUint64BE e.seq ++ idBytes e.id ∧ getUint64BE e.key = e.seq := by
  have hlog : (writeAll (freshTransport 0 1) us).log = mkEntries 0 us := by
    have := writeAll_nocleanup us (freshTransport 0 1) rfl rfl
    simpa using this
  rw [hlog]
  have hshape := mkEntries_shape us 0
  have hseqs : (mkEntries 0 us).map LogEntry.seq = List.range' 1 us.length :=
    mkEntries_seqs us 0
  have hpwseq : List.Pairwise (fun a b => a.seq < b.seq) (mkEntries 0 us) := by
    have hp : List.Pairwise (· < ·) ((mkEntries 0 us).map LogEntry.seq) := by
      rw [hseqs]
      exact List.pairwise_lt_range' 1 us.length
    exact List.pairwise_map.mp hp
  constructor
  · rw [List.pairwise_map]
    apply hpwseq.imp_of_mem
    intro a b ha hb hab
    have hsa := hshape a ha
    have hsb := hshape b hb
    exact key_lt a b hsa.1 hsb.1 hab (by omega)
  · intro e he
    have hs := hshape e he
    refine ⟨hs.1, ?_⟩
    rw [hs.1]
    exact getUint64BE_put e.seq (by omega) (idBytes e.id)

theorem log_keys_sorted_witness :
    [uA, uB].length < 2 ^ 64 ∧
    (List.Pairwise (List.Lex (· < ·))
        ((writeAll (freshTransport 0 1) [uA, uB]).log.map LogEntry.key) ∧
      ∀ e ∈ (writeAll (freshTransport 0 1) [uA, uB]).log,
        e.key = putUint64BE e.seq ++ idBytes e.id ∧ getUint64BE e.key = e.seq) :=
  ⟨by norm_num, log_keys_sorted [uA, uB] (by norm_num)⟩

end Mercure
